import Mathlib

/-!
Shallow embedding of the singly-linked stack from `src/src/second.rs`
(generic final version) and `src/src/first.rs` (earlier non-generic
version), with proofs of the specified properties.
-/

/-- Lean's builtin list type, used as the mathematical sequence of elements. -/
abbrev Elems (T : Type) := List T

namespace second

/-- `struct Node<T> { elem: T, next: Link<T> }` where
`type Link<T> = Option<Box<Node<T>>>` (the `Box` is identity in the
shallow embedding). -/
inductive Node (T : Type) : Type where
  | mk (elem : T) (next : Option (Node T))

/-- `type Link<T> = Option<Box<Node<T>>>`. -/
abbrev Link (T : Type) := Option (Node T)

/-- `pub struct List<T> { root: Link<T> }`. -/
structure List (T : Type) : Type where
  root : Link T

variable {T : Type}

def Node.elem : Node T → T
  | Node.mk e _ => e

def Node.next : Node T → Link T
  | Node.mk _ n => n

/-- The sequence of elements stored in the chain hanging off a node,
head (most recently pushed) first. -/
def Node.chain : Node T → Elems T
  | Node.mk e next =>
    match next with
    | Option.none => [e]
    | Option.some n => e :: n.chain

/-- The sequence of elements reachable from a link, head first. -/
def Link.chain : Link T → Elems T
  | Option.none => []
  | Option.some n => n.chain

/-- Elements of the list, most recently pushed first. -/
def List.elems (l : List T) : Elems T := l.root.chain

/-- `pub fn new() -> List<T> { List { root: Link::None } }`. -/
def List.new : List T := { root := Option.none }

/-- `pub fn push(&mut self, elem: T)`: allocates
`Box::new(Node { elem, next: self.root.take() })` and stores it in
`self.root`.  The mutation of `self` is modelled by returning the
updated list. -/
def List.push (l : List T) (elem : T) : List T :=
  let new_node := Node.mk elem l.root
  { root := Option.some new_node }

/-- `pub fn pop(&mut self) -> Option<T>`:
`self.root.take().map(|node| { self.root = node.next; node.elem })`.
Returns the popped value together with the updated list; on `None` the
taken root stays `None`. -/
def List.pop (l : List T) : Option T × List T :=
  match l.root with
  | Option.none => (Option.none, { root := Option.none })
  | Option.some node => (Option.some node.elem, { root := node.next })

/-- `pub fn peek(&self) -> Option<&T>`:
`self.root.as_ref().map(|node| &node.elem)`.  The returned shared
reference is modelled by the value it points at; `self` is taken by
shared reference, hence no updated list is returned. -/
def List.peek (l : List T) : Option T :=
  l.root.map Node.elem

/-- `pub fn peek_mut(&mut self) -> Option<&mut T>`:
`self.root.as_mut().map(|node| &mut node.elem)`.  Reading through the
returned mutable reference is modelled by the value it points at. -/
def List.peek_mut (l : List T) : Option T :=
  l.root.map Node.elem

/-- The effect on the list of assigning `v` through the mutable
reference returned by `peek_mut` (as in the source test:
`list.peek_mut().map(|value| { *value = 42 })`): when the list is
non-empty the first node's `elem` field becomes `v`, otherwise
`peek_mut` returned `None` and nothing is written. -/
def List.peek_mut_set (l : List T) (v : T) : List T :=
  match l.root with
  | Option.none => l
  | Option.some node => { root := Option.some (Node.mk v node.next) }

/-- One iteration of the `while let` loop in `impl<T> Drop for List<T>`:
given `cur_link`, if it is `Link::Some(mut boxed_node)` then
`cur_link = mem::replace(&mut boxed_node.next, Link::None)` severs the
node's next-link (the severed node, now with `next = None`, is then
discarded in O(1)); if it is `None` the loop has exited and the link
stays `None`. -/
def dropStep : Link T → Link T
  | Option.none => Option.none
  | Option.some node => node.next

/-- `pub struct IntoIter<T>(List<T>)` — field `0` named `inner`. -/
structure IntoIter (T : Type) : Type where
  inner : List T

/-- `pub fn into_iter(self) -> IntoIter<T> { IntoIter(self) }`. -/
def List.into_iter (l : List T) : IntoIter T := IntoIter.mk l

/-- `impl<T> Iterator for IntoIter<T>`:
`fn next(&mut self) -> Option<Self::Item> { self.0.pop() }`. -/
def IntoIter.next (it : IntoIter T) : Option T × IntoIter T :=
  let r := it.inner.pop
  (r.fst, IntoIter.mk r.snd)

/-- Running the consuming iterator for `k` calls to `next`, collecting
the yielded values in order. -/
def IntoIter.run : IntoIter T → Nat → Elems (Option T) × IntoIter T
  | it, 0 => ([], it)
  | it, k + 1 =>
    let s := it.next
    let rest := s.snd.run k
    (s.fst :: rest.fst, rest.snd)

/-- `pub struct Iter<'a, T> { next: Option<&'a Node<T>> }`.  The shared
reference to a node is modelled by the node value. -/
structure Iter (T : Type) : Type where
  next : Option (Node T)

/-- `pub fn iter<'a>(&'a self) -> Iter<'a, T>`:
`Iter { next: self.root.as_deref().map(|node| &*node) }`. -/
def List.iter (l : List T) : Iter T :=
  Iter.mk l.root

/-- `impl<'a, T> Iterator for Iter<'a, T>`:
`self.next.map(|node| { self.next = node.next.as_deref().map(|node| &*node); &node.elem })`.
(Named `nextStep` because the Lean name `Iter.next` is taken by the
struct field of the same name.) -/
def Iter.nextStep (it : Iter T) : Option T × Iter T :=
  match it.next with
  | Option.none => (Option.none, it)
  | Option.some node => (Option.some node.elem, Iter.mk node.next)

/-- Running the shared-reference iterator for `k` calls to `next`,
collecting the yielded values. -/
def Iter.run : Iter T → Nat → Elems (Option T) × Iter T
  | it, 0 => ([], it)
  | it, k + 1 =>
    let s := it.nextStep
    let rest := s.snd.run k
    (s.fst :: rest.fst, rest.snd)

/-- `pub struct IterMut<'a, T> { next: Option<&'a mut Node<T>> }`.  The
exclusive reference is modelled by the node value it points at (the
iterator holds the only path to the unvisited suffix). -/
structure IterMut (T : Type) : Type where
  next : Option (Node T)

/-- `pub fn iter_mut<'a>(&'a mut self) -> IterMut<'a, T>`:
`IterMut { next: self.root.as_deref_mut() }`. -/
def List.iter_mut (l : List T) : IterMut T :=
  IterMut.mk l.root

/-- A running mutable-iteration session in which the caller assigns
`f old` through every yielded `&mut` reference.  `written` records the
elements already yielded, after the caller's write, in yield order;
`it` is the iterator itself.  Since `fn next` takes (`self.next.take()`)
the node, yields `&mut node.elem` and advances with
`self.next = node.next.as_deref_mut()`, the visited prefix is owned by
the list and no longer reachable from the iterator. -/
structure IterMutSession (T : Type) : Type where
  written : Elems T
  it : IterMut T

/-- One `next` call of `impl<'a, T> Iterator for IterMut<'a, T>`
followed by the caller writing `f old` through the yielded reference:
`self.next.take().map(|node| { self.next = node.next.as_deref_mut(); &mut node.elem })`.
The yielded value (first component) is the element as seen by the
caller when the reference is handed out. -/
def IterMutSession.step (f : T → T) (s : IterMutSession T) :
    Option T × IterMutSession T :=
  match s.it.next with
  | Option.none => (Option.none, s)
  | Option.some node =>
    (Option.some node.elem,
      IterMutSession.mk (s.written ++ [f node.elem]) (IterMut.mk node.next))

/-- Running the mutable-iteration session for `k` calls to `next`. -/
def IterMutSession.run (f : T → T) :
    IterMutSession T → Nat → Elems (Option T) × IterMutSession T
  | s, 0 => ([], s)
  | s, k + 1 =>
    let st := s.step f
    let rest := st.snd.run f k
    (st.fst :: rest.fst, rest.snd)

/-- Re-links a visited prefix (in yield order) in front of a suffix
link: this is the chain the list owns after (part of) a mutable
iteration pass, since each visited node stays in place with only its
`elem` field rewritten. -/
def rebuild : Elems T → Link T → Link T
  | [], k => k
  | e :: es, k => Option.some (Node.mk e (rebuild es k))

/-- Popping `k` times in a row, collecting the results in order. -/
def popN : List T → Nat → Elems (Option T) × List T
  | l, 0 => ([], l)
  | l, k + 1 =>
    let s := l.pop
    let rest := popN s.snd k
    (s.fst :: rest.fst, rest.snd)

/-- Pushing a sequence of elements in order: `e1` first, `en` last. -/
def pushAll (l : List T) (es : Elems T) : List T :=
  es.foldl List.push l

end second

namespace first

/-- `enum Link { Empty, PointerTo(Box<Node>) }` with
`struct Node { elem: i32, next: Link }`: the boxed node is inlined into
the `PointerTo` constructor as its two fields (`Box` is identity in the
shallow embedding, and `i32` is modelled by `Int` since the list never
computes with elements). -/
inductive Link : Type where
  | Empty : Link
  | PointerTo (elem : Int) (next : Link) : Link

/-- `pub struct List { root: Link }`. -/
structure List : Type where
  root : Link

/-- The sequence of elements reachable from a link, head first. -/
def Link.chain : Link → Elems Int
  | Link.Empty => []
  | Link.PointerTo e next => e :: next.chain

/-- Elements of the list, most recently pushed first. -/
def List.elems (l : List) : Elems Int := l.root.chain

/-- `pub fn new() -> List { List { root: Link::Empty } }`. -/
def List.new : List := { root := Link.Empty }

/-- `pub fn push(&mut self, elem: i32)`: allocates
`Box::new(Node { elem, next: mem::replace(&mut self.root, Link::Empty) })`
and stores `Link::PointerTo(new_node)` in `self.root`. -/
def List.push (l : List) (elem : Int) : List :=
  { root := Link.PointerTo elem l.root }

/-- `pub fn pop(&mut self) -> Option<i32>`:
`match mem::replace(&mut self.root, Link::Empty)` — on `Empty` returns
`None` (the replaced root stays `Empty`), on `PointerTo(node)` sets
`self.root = node.next` and returns `Some(node.elem)`. -/
def List.pop (l : List) : Option Int × List :=
  match l.root with
  | Link.Empty => (Option.none, { root := Link.Empty })
  | Link.PointerTo e next => (Option.some e, { root := next })

/-- One iteration of the `while let` loop in `impl Drop for List`:
`cur_link = mem::replace(&mut boxed_node.next, Link::Empty)`; the
severed node is then discarded. -/
def dropStep : Link → Link
  | Link.Empty => Link.Empty
  | Link.PointerTo _ next => next

end first

/-- One operation of the interface shared by `first::List` and
`second::List<i32>`. -/
inductive Op : Type where
  | push (v : Int) : Op
  | pop : Op

/-- Runs a sequence of operations against the `first.rs` list,
collecting each `pop`'s result. -/
def first.runOps : first.List → Elems Op → Elems (Option Int) × first.List
  | l, [] => ([], l)
  | l, Op.push v :: ops => first.runOps (l.push v) ops
  | l, Op.pop :: ops =>
    let s := l.pop
    let rest := first.runOps s.snd ops
    (s.fst :: rest.fst, rest.snd)

/-- Runs a sequence of operations against the `second.rs` list at
element type `Int`, collecting each `pop`'s result. -/
def second.runOps : second.List Int → Elems Op → Elems (Option Int) × second.List Int
  | l, [] => ([], l)
  | l, Op.push v :: ops => second.runOps (l.push v) ops
  | l, Op.pop :: ops =>
    let s := l.pop
    let rest := second.runOps s.snd ops
    (s.fst :: rest.fst, rest.snd)

/-- The abstraction relating the `first.rs` representation to the
`second.rs` representation: `Empty ↦ None`,
`PointerTo(Node { elem, next }) ↦ Some(Node { elem, next })`. -/
def absLink : first.Link → second.Link Int
  | first.Link.Empty => Option.none
  | first.Link.PointerTo e next => Option.some (second.Node.mk e (absLink next))

/-- Abstraction on whole lists. -/
def absList (l : first.List) : second.List Int :=
  { root := absLink l.root }

/-- A list built by 100000 pushes, for the teardown-at-scale property. -/
def bigList : second.List Nat :=
  second.pushAll second.List.new (List.range 100000)

section Lemmas

namespace second

variable {T : Type}

theorem Link.chain_some (e : T) (nx : Link T) :
    Link.chain (Option.some (Node.mk e nx)) = e :: nx.chain := by
  cases nx <;> rfl

theorem Link.chain_eq_nil (link : Link T) :
    link.chain = [] ↔ link = Option.none := by
  cases link with
  | none => simp [Link.chain]
  | some node =>
    cases node with
    | mk e nx => simp [Link.chain_some]

theorem List.elems_new : (List.new : List T).elems = [] := rfl

theorem List.elems_push (l : List T) (e : T) :
    (l.push e).elems = e :: l.elems := by
  simpa [List.push, List.elems] using Link.chain_some e l.root

theorem List.pop_fst (l : List T) : (l.pop).fst = l.elems.head? := by
  obtain ⟨root⟩ := l
  cases root with
  | none => rfl
  | some node =>
    cases node with
    | mk e nx => simp [List.pop, List.elems, Link.chain_some, Node.elem]

theorem List.pop_snd (l : List T) : (l.pop).snd.elems = l.elems.tail := by
  obtain ⟨root⟩ := l
  cases root with
  | none => rfl
  | some node =>
    cases node with
    | mk e nx => simp [List.pop, List.elems, Link.chain_some, Node.next]

theorem List.push_pop (l : List T) (e : T) :
    (l.push e).pop = (Option.some e, l) := rfl

theorem List.peek_eq_head (l : List T) : l.peek = l.elems.head? := by
  obtain ⟨root⟩ := l
  cases root with
  | none => rfl
  | some node =>
    cases node with
    | mk e nx => simp [List.peek, List.elems, Link.chain_some, Node.elem]

theorem List.peek_mut_eq_head (l : List T) : l.peek_mut = l.elems.head? :=
  List.peek_eq_head l

theorem chain_dropStep (link : Link T) :
    (dropStep link).chain = link.chain.tail := by
  cases link with
  | none => rfl
  | some node =>
    cases node with
    | mk e nx => simp [dropStep, Link.chain_some, Node.next]

theorem chain_dropStep_iterate (k : Nat) (link : Link T) :
    (dropStep^[k] link).chain = link.chain.drop k := by
  induction k generalizing link with
  | zero => rfl
  | succ k ih =>
    rw [Function.iterate_succ_apply, ih, chain_dropStep, ← List.drop_one,
      List.drop_drop, Nat.add_comm]

theorem popN_spec (k : Nat) (l : List T) :
    (popN l k).fst
        = (l.elems.take k).map Option.some
          ++ List.replicate (k - l.elems.length) Option.none
      ∧ (popN l k).snd.elems = l.elems.drop k := by
  induction k generalizing l with
  | zero => simp [popN]
  | succ k ih =>
    obtain ⟨root⟩ := l
    cases root with
    | none =>
      have h := ih (List.mk Option.none)
      simp [popN, List.pop, List.elems, Link.chain, List.replicate_succ]
        at h ⊢
      exact ⟨h.1, h.2⟩
    | some node =>
      cases node with
      | mk e nx =>
        have h := ih (List.mk nx)
        simp [popN, List.pop, List.elems, Link.chain_some, Node.elem,
          Node.next, Nat.succ_sub_succ] at h ⊢
        exact ⟨h.1, h.2⟩

theorem pushAll_elems (es : Elems T) (l : List T) :
    (pushAll l es).elems = es.reverse ++ l.elems := by
  induction es generalizing l with
  | nil => simp [pushAll]
  | cons e es ih =>
    have h := ih (l.push e)
    simp [pushAll, List.foldl] at h ⊢
    rw [h, List.elems_push]

theorem IntoIter.run_eq_popN (k : Nat) (it : IntoIter T) :
    (it.run k).fst = (popN it.inner k).fst
      ∧ (it.run k).snd.inner = (popN it.inner k).snd := by
  induction k generalizing it with
  | zero => simp [IntoIter.run, popN]
  | succ k ih =>
    have h := ih (IntoIter.mk (it.inner.pop).snd)
    simp [IntoIter.run, popN, IntoIter.next] at h ⊢
    exact h

theorem Iter.run_spec (k : Nat) (link : Link T) :
    ((Iter.mk link).run k).fst
        = (link.chain.take k).map Option.some
          ++ List.replicate (k - link.chain.length) Option.none
      ∧ Link.chain (((Iter.mk link).run k).snd.next) = link.chain.drop k := by
  induction k generalizing link with
  | zero => simp [Iter.run]
  | succ k ih =>
    cases link with
    | none =>
      have h := ih Option.none
      simp [Iter.run, Iter.nextStep, Link.chain, List.replicate_succ]
        at h ⊢
      exact ⟨h.1, h.2⟩
    | some node =>
      cases node with
      | mk e nx =>
        have h := ih nx
        simp [Iter.run, Iter.nextStep, Link.chain_some, Node.elem,
          Node.next] at h ⊢
        exact h

theorem IterMutSession.run_written_spec (f : T → T) (k : Nat) (link : Link T)
    (w : Elems T) :
    ((IterMutSession.mk w (IterMut.mk link)).run f k).fst
        = (link.chain.take k).map Option.some
          ++ List.replicate (k - link.chain.length) Option.none
      ∧ ((IterMutSession.mk w (IterMut.mk link)).run f k).snd.written
        = w ++ (link.chain.take k).map f
      ∧ Link.chain
          (((IterMutSession.mk w (IterMut.mk link)).run f k).snd.it.next)
        = link.chain.drop k := by
  induction k generalizing link w with
  | zero => simp [IterMutSession.run]
  | succ k ih =>
    cases link with
    | none =>
      have h := ih Option.none w
      simp [IterMutSession.run, IterMutSession.step, Link.chain,
        List.replicate_succ] at h ⊢
      exact ⟨h.1, h.2.1, h.2.2⟩
    | some node =>
      cases node with
      | mk e nx =>
        have h := ih nx (w ++ [f e])
        simp [IterMutSession.run, IterMutSession.step, Link.chain_some,
          Node.elem, Node.next] at h ⊢
        exact h

theorem rebuild_chain (es : Elems T) (k : Link T) :
    (rebuild es k).chain = es ++ k.chain := by
  induction es with
  | nil => rfl
  | cons e es ih => simp [rebuild, Link.chain_some, ih]

end second

namespace first

theorem dropStep_chain (link : Link) :
    (dropStep link).chain = link.chain.tail := by
  cases link <;> rfl

theorem dropStep_iterate_chain (k : Nat) (link : Link) :
    (dropStep^[k] link).chain = link.chain.drop k := by
  induction k generalizing link with
  | zero => rfl
  | succ k ih =>
    rw [Function.iterate_succ_apply, ih, dropStep_chain, ← List.drop_one,
      List.drop_drop, Nat.add_comm]

theorem Link.chain_empty_iff (link : Link) :
    link.chain = [] ↔ link = Link.Empty := by
  cases link <;> simp [Link.chain]

end first

theorem absList_new : absList first.List.new = second.List.new := rfl

theorem absList_push (l : first.List) (v : Int) :
    absList (l.push v) = (absList l).push v := rfl

theorem absList_pop (l : first.List) :
    (l.pop).fst = ((absList l).pop).fst
      ∧ absList (l.pop).snd = ((absList l).pop).snd := by
  obtain ⟨root⟩ := l
  cases root with
  | Empty => exact ⟨rfl, rfl⟩
  | PointerTo e nx =>
    constructor <;>
      simp [first.List.pop, second.List.pop, absList, absLink,
        second.Node.elem, second.Node.next]

theorem runOps_equiv (ops : Elems Op) (l : first.List) :
    (first.runOps l ops).fst = (second.runOps (absList l) ops).fst
      ∧ absList (first.runOps l ops).snd
        = (second.runOps (absList l) ops).snd := by
  induction ops generalizing l with
  | nil => simp [first.runOps, second.runOps]
  | cons op ops ih =>
    cases op with
    | push v =>
      have h := ih (l.push v)
      simpa [first.runOps, second.runOps, absList_push] using h
    | pop =>
      have hp := absList_pop l
      have h := ih (l.pop).snd
      rw [hp.2] at h
      simp [first.runOps, second.runOps]
      exact ⟨⟨hp.1, h.1⟩, h.2⟩

end Lemmas

/-- C9: `push(e)` makes the new node the sole point of entry with the
previous chain intact as its successor chain, so `push` followed by
`pop` returns `Some(e)` and restores the original list exactly. -/
theorem claim9_push_pop :
    ∀ (T : Type) (l : second.List T) (e : T),
      (l.push e).pop = (Option.some e, l)
        ∧ (l.push e).elems = e :: l.elems :=
  fun _ l e => ⟨second.List.push_pop l e, second.List.elems_push l e⟩

/-- C10: the non-generic list of `first.rs` and the generic list of
`second.rs` instantiated at `i32` are behaviourally equivalent on the
shared `new`/`push`/`pop` interface: every operation sequence produces
identical pop results from both implementations, and the final states
correspond under the representation abstraction. -/
theorem claim10_first_second_equiv :
    ∀ ops : Elems Op,
      (first.runOps first.List.new ops).fst
          = (second.runOps second.List.new ops).fst
        ∧ absList (first.runOps first.List.new ops).snd
          = (second.runOps second.List.new ops).snd := by
  intro ops
  have h := runOps_equiv ops first.List.new
  rwa [absList_new] at h

/-- C6: `pop` on an empty list returns no value and leaves the list
unchanged — in particular on a fresh `new()` list, and on every pop
after a full drain; on a non-empty list it removes exactly the first
node and returns its element. -/
theorem claim6_pop_empty :
    (∀ T : Type, (second.List.new : second.List T).pop
        = (Option.none, second.List.new))
      ∧ (∀ (T : Type) (l : second.List T), l.root = Option.none →
          l.pop = (Option.none, l))
      ∧ (∀ (T : Type) (l : second.List T),
          (l.pop).fst = l.elems.head? ∧ (l.pop).snd.elems = l.elems.tail)
      ∧ (∀ (T : Type) (k : Nat),
          (second.popN (second.List.new : second.List T) k).fst
            = List.replicate k Option.none)
      ∧ (∀ (T : Type) (es : Elems T) (k : Nat),
          (second.popN (second.pushAll second.List.new es)
              (es.length + k)).fst
            = es.reverse.map Option.some
              ++ List.replicate k Option.none) := by
  refine ⟨fun T => rfl, ?_, ?_, ?_, ?_⟩
  · intro T l h
    obtain ⟨root⟩ := l
    cases h
    rfl
  · intro T l
    exact ⟨second.List.pop_fst l, second.List.pop_snd l⟩
  · intro T k
    have h := (second.popN_spec k (second.List.new : second.List T)).1
    simpa [second.List.elems_new] using h
  · intro T es k
    have h := (second.popN_spec (es.length + k)
      (second.pushAll second.List.new es)).1
    have he : (second.pushAll second.List.new es).elems = es.reverse := by
      simpa [second.List.elems_new] using
        second.pushAll_elems es second.List.new
    rw [he] at h
    rw [h, List.take_of_length_le (by simp)]
    simp

/-- Witness for C6 at a concrete input: the empty-root hypothesis of
the second conjunct discharged at `T = Nat`, `l = new()`. -/
theorem claim6_pop_empty_witness :
    (second.List.new : second.List Nat).pop
      = (Option.none, second.List.new) :=
  claim6_pop_empty.2.1 Nat second.List.new rfl

/-- C7: `peek` and `peek_mut` return no value exactly on the empty
list, otherwise a view of the first element (the element `pop` would
remove) without removing it; neither mutates the list (both are
functions of the list that return no updated state, mirroring the
`&self`/`&mut self` borrows), so a subsequent `pop` observes the same
state as before the peek. -/
theorem claim7_peek :
    (∀ (T : Type) (l : second.List T),
        (l.peek = Option.none ↔ l.elems = [])
          ∧ (l.peek_mut = Option.none ↔ l.elems = []))
      ∧ (∀ (T : Type) (l : second.List T),
          l.peek = l.elems.head? ∧ l.peek_mut = l.elems.head?
            ∧ l.peek = (l.pop).fst)
      ∧ ((second.pushAll second.List.new [1, 2, 3]).peek
            = Option.some (3 : Nat)
          ∧ (second.pushAll second.List.new [1, 2, 3]).pop
            = (Option.some (3 : Nat),
                second.pushAll second.List.new [1, 2]))
      ∧ ((second.List.new : second.List Nat).peek = Option.none
          ∧ (second.List.new : second.List Nat).peek_mut = Option.none) := by
  refine ⟨?_, ?_, ⟨rfl, rfl⟩, rfl, rfl⟩
  · intro T l
    rw [second.List.peek_eq_head, second.List.peek_mut_eq_head]
    exact ⟨List.head?_eq_none_iff, List.head?_eq_none_iff⟩
  · intro T l
    refine ⟨second.List.peek_eq_head l, second.List.peek_mut_eq_head l, ?_⟩
    rw [second.List.peek_eq_head, second.List.pop_fst]

/-- C8: a write through the reference returned by `peek_mut` is visible
to every subsequent operation: the head becomes the written value for
`peek` and `pop` while the tail is untouched; concretely, after pushing
1, 2, 3 and assigning 42 through `peek_mut`, `peek` observes 42 and the
full pop sequence yields 42, 2, 1. -/
theorem claim8_peek_mut_write :
    (∀ (T : Type) (l : second.List T) (v : T),
        (l.peek_mut_set v).peek = (l.peek).map (fun _ => v)
          ∧ ((l.peek_mut_set v).pop).fst = (l.peek).map (fun _ => v)
          ∧ ((l.peek_mut_set v).pop).snd.elems = ((l.pop).snd).elems)
      ∧ ((second.pushAll second.List.new [1, 2, 3]).peek_mut_set 42
            |>.peek) = Option.some (42 : Nat)
      ∧ (second.popN
            ((second.pushAll second.List.new [1, 2, 3]).peek_mut_set 42)
            3).fst
          = [Option.some (42 : Nat), Option.some 2, Option.some 1] := by
  refine ⟨?_, rfl, rfl⟩
  intro T l v
  obtain ⟨root⟩ := l
  cases root with
  | none =>
    exact ⟨rfl, rfl, rfl⟩
  | some node =>
    cases node with
    | mk e nx =>
      refine ⟨rfl, rfl, ?_⟩
      simp [second.List.peek_mut_set, second.List.pop, second.List.elems,
        second.Node.next]

/-- C1: strict LIFO — pushing `e1, …, en` and then popping `n` times
yields `en, …, e1`; and the stack simulation holds under arbitrary
interleaving, since `push` prepends to the element sequence and every
`pop` removes and returns exactly the most recently pushed element not
yet popped (the head of that sequence). -/
theorem claim1_lifo :
    (∀ (T : Type) (es : Elems T),
        (second.popN (second.pushAll second.List.new es) es.length).fst
          = es.reverse.map Option.some)
      ∧ (∀ (T : Type) (l : second.List T) (e : T),
          (l.push e).elems = e :: l.elems)
      ∧ (∀ (T : Type) (l : second.List T),
          (l.pop).fst = l.elems.head?
            ∧ (l.pop).snd.elems = l.elems.tail) := by
  refine ⟨?_, ?_, ?_⟩
  · intro T es
    have hp := (second.popN_spec es.length
      (second.pushAll second.List.new es)).1
    have he : (second.pushAll second.List.new es).elems = es.reverse := by
      simpa [second.List.elems_new] using
        second.pushAll_elems es second.List.new
    rw [he] at hp
    simpa [List.take_of_length_le] using hp
  · intro T l e
    exact second.List.elems_push l e
  · intro T l
    exact ⟨second.List.pop_fst l, second.List.pop_snd l⟩

/-- C2: teardown is the iterated loop body `dropStep` (take the first
node, sever its next-link, discard it): after `k` iterations exactly
the first `k` nodes are gone, the loop reaches the empty link in
exactly `length` iterations and stays there, the same holds for the
`first.rs` drop loop, and the loop over a 100000-element list reaches
the empty link after 100000 iterations. -/
theorem claim2_drop_iterative :
    (∀ (T : Type) (l : second.List T) (k : Nat),
        second.Link.chain (second.dropStep^[k] l.root) = l.elems.drop k)
      ∧ (∀ (T : Type) (l : second.List T) (k : Nat),
          second.dropStep^[l.elems.length + k] l.root = Option.none)
      ∧ (∀ (l : first.List) (k : Nat),
          first.Link.chain (first.dropStep^[k] l.root) = l.elems.drop k
            ∧ first.dropStep^[l.elems.length + k] l.root = first.Link.Empty)
      ∧ second.dropStep^[100000] bigList.root = Option.none := by
  have hsec : ∀ (T : Type) (l : second.List T) (k : Nat),
      second.dropStep^[l.elems.length + k] l.root = Option.none := by
    intro T l k
    have h0 : second.dropStep^[l.elems.length] l.root = Option.none := by
      have h1 := second.chain_dropStep_iterate l.elems.length l.root
      simp [second.List.elems, List.drop_length] at h1
      exact (second.Link.chain_eq_nil _).1 h1
    rw [Nat.add_comm, Function.iterate_add_apply, h0]
    exact Function.iterate_fixed rfl k
  refine ⟨?_, hsec, ?_, ?_⟩
  · intro T l k
    exact second.chain_dropStep_iterate k l.root
  · intro l k
    refine ⟨first.dropStep_iterate_chain k l.root, ?_⟩
    have h0 : first.dropStep^[l.elems.length] l.root = first.Link.Empty := by
      have h1 := first.dropStep_iterate_chain l.elems.length l.root
      simp [first.List.elems, List.drop_length] at h1
      exact (first.Link.chain_empty_iff _).1 h1
    rw [Nat.add_comm, Function.iterate_add_apply, h0]
    exact Function.iterate_fixed rfl k
  · have hlen : (bigList).elems.length = 100000 := by
      have he : (bigList).elems = (List.range 100000).reverse := by
        simpa [bigList, second.List.elems_new] using
          second.pushAll_elems (List.range 100000) second.List.new
      simp [he]
    have h := hsec Nat bigList 0
    rwa [hlen] at h

/-- C4: each `next` of the consuming iterator is exactly a `pop` of the
wrapped list, so iteration yields the elements by value in LIFO order,
the sequence of values has length equal to the element count at
creation, and after exhaustion the wrapped list is empty and every
further `next` keeps returning no value. -/
theorem claim4_into_iter :
    (∀ (T : Type) (it : second.IntoIter T),
        it.next = ((it.inner.pop).fst, second.IntoIter.mk (it.inner.pop).snd))
      ∧ (∀ (T : Type) (l : second.List T) (k : Nat),
          ((l.into_iter).run k).fst
              = (l.elems.take k).map Option.some
                ++ List.replicate (k - l.elems.length) Option.none
            ∧ ((l.into_iter).run k).snd.inner.elems = l.elems.drop k)
      ∧ (((second.pushAll second.List.new [1, 2, 3]).into_iter.run 5).fst
          = [Option.some (3 : Nat), Option.some 2, Option.some 1,
              Option.none, Option.none]) := by
  refine ⟨fun T it => rfl, ?_, rfl⟩
  intro T l k
  have h := second.IntoIter.run_eq_popN k (l.into_iter)
  have hp := second.popN_spec k l
  have hinner : (l.into_iter).inner = l := rfl
  rw [hinner] at h
  refine ⟨?_, ?_⟩
  · rw [h.1, hp.1]
  · rw [h.2, hp.2]

/-- C5: the shared-reference iterator yields the elements head-to-tail
(LIFO): after `k` steps it has yielded the first `k` elements (then
keeps yielding no value once exhausted) and its cursor holds the `k`-th
suffix; creating and running it does not mutate the list (it is a pure
function of the list, mirroring the `&self` borrow), so a subsequent
`pop` still returns the head, as the concrete 1, 2, 3 scenario shows. -/
theorem claim5_iter :
    (∀ (T : Type) (l : second.List T) (k : Nat),
        ((l.iter).run k).fst
            = (l.elems.take k).map Option.some
              ++ List.replicate (k - l.elems.length) Option.none
          ∧ second.Link.chain (((l.iter).run k).snd.next)
            = l.elems.drop k)
      ∧ (((second.pushAll second.List.new [1, 2, 3]).iter.run 3).fst
          = [Option.some (3 : Nat), Option.some 2, Option.some 1])
      ∧ ((second.pushAll second.List.new [1, 2, 3]).pop
          = (Option.some (3 : Nat),
              second.pushAll second.List.new [1, 2])) := by
  refine ⟨?_, rfl, rfl⟩
  intro T l k
  exact second.Iter.run_spec k l.root

/-- C3: the mutable-reference iterator yields each element exactly once
in head-to-tail order — after `k` steps the elements written through
the yielded references are exactly the first `k` (in order), and the
iterator holds only the `k`-th suffix, so it never re-derives a
reference to a node it has stepped past; the writes are visible
afterwards: the final chain carries `f` applied to every element, and
in the concrete scenario pushing 1, 2, 3 and multiplying by 10 through
the iterator makes the full pop sequence yield 30, 20, 10. -/
theorem claim3_iter_mut :
    (∀ (T : Type) (l : second.List T) (f : T → T) (k : Nat),
        ((second.IterMutSession.mk [] l.iter_mut).run f k).fst
            = (l.elems.take k).map Option.some
              ++ List.replicate (k - l.elems.length) Option.none
          ∧ ((second.IterMutSession.mk [] l.iter_mut).run f k).snd.written
            = (l.elems.take k).map f
          ∧ second.Link.chain
              (((second.IterMutSession.mk [] l.iter_mut).run f
                  k).snd.it.next)
            = l.elems.drop k)
      ∧ (∀ (T : Type) (l : second.List T) (f : T → T),
          second.Link.chain
              (second.rebuild
                (((second.IterMutSession.mk [] l.iter_mut).run f
                    l.elems.length).snd.written)
                (((second.IterMutSession.mk [] l.iter_mut).run f
                    l.elems.length).snd.it.next))
            = l.elems.map f)
      ∧ ((second.popN
            (second.List.mk
              (second.rebuild
                (((second.IterMutSession.mk []
                      (second.pushAll second.List.new [1, 2, 3]).iter_mut).run
                    (fun x => 10 * x) 3).snd.written)
                (((second.IterMutSession.mk []
                      (second.pushAll second.List.new [1, 2, 3]).iter_mut).run
                    (fun x => 10 * x) 3).snd.it.next)))
            3).fst
          = [Option.some (30 : Nat), Option.some 20, Option.some 10]) := by
  have hrun : ∀ (T : Type) (l : second.List T) (f : T → T) (k : Nat),
      ((second.IterMutSession.mk [] l.iter_mut).run f k).fst
          = (l.elems.take k).map Option.some
            ++ List.replicate (k - l.elems.length) Option.none
        ∧ ((second.IterMutSession.mk [] l.iter_mut).run f k).snd.written
          = (l.elems.take k).map f
        ∧ second.Link.chain
            (((second.IterMutSession.mk [] l.iter_mut).run f
                k).snd.it.next)
          = l.elems.drop k := by
    intro T l f k
    have h := second.IterMutSession.run_written_spec f k l.root []
    simpa [second.List.iter_mut, second.List.elems] using h
  refine ⟨hrun, ?_, rfl⟩
  intro T l f
  have h := hrun T l f l.elems.length
  rw [second.rebuild_chain, h.2.1, h.2.2, List.drop_length,
    List.take_length]
  simp [second.Link.chain]
